import Mathlib

/-!
Verification of the `poly` module (`code/poly.c` of micropython-ulab):
polynomial evaluation (`poly_polyval`), least-squares polynomial fitting
(`poly_polyfit`), and piecewise-linear interpolation (`poly_interp`).

The embedding works over `ℚ` in place of the C `mp_float_t`: the algebraic
identities claimed for the algorithms (Horner scheme vs. direct power sum,
normal-equations round trip, knot exactness of interpolation) are exact
identities of field arithmetic, which `ℚ` models exactly.

Machine-integer behaviour of the C code is kept where it is observable:
the 8-bit coefficient counter of `poly_polyval`, the 16-bit length fields
and the 8-bit degree cast of `poly_polyfit`, and the 8-bit `for`-loop
counters of the design-matrix build.  Where the C code's behaviour is
undefined (out-of-bounds reads/writes caused by those narrow counters),
the embedding returns the explicit error value `PolyErr.outOfBounds`.
-/

/-- Error outcomes of the three operations.  `invalidArgument` stands for the
`mp_raise_ValueError` calls of the upfront validation code, `singularMatrix`
for the `could not invert Vandermonde matrix` raise of `poly_polyfit`, and
`outOfBounds` marks inputs on which the C code performs an out-of-bounds
buffer access (undefined behaviour), so that no defined result exists. -/
inductive PolyErr where
  | invalidArgument : PolyErr
  | singularMatrix : PolyErr
  | outOfBounds : PolyErr
deriving DecidableEq, Repr

/-! ## Evaluator: poly_polyval -/

/-- The Horner accumulation loop of `poly_polyval` (poly.c lines 68-72):
`y = p[0]; for(j = 0; j < plen-1; j++) { y *= x; y += p[j+1]; }`.
The fold runs over the coefficients after the leading one, starting from
the leading coefficient as accumulator. -/
def hornerLoop (c0 : ℚ) (cs : List ℚ) (x : ℚ) : ℚ :=
  cs.foldl (fun y ck => y * x + ck) c0

/-- `poly_polyval` (poly.c lines 32-77), per the flat-buffer semantics: the
coefficient count is read into `uint8_t plen`, a buffer of `plen` floats is
allocated and filled from the iterable, and each point `x` is mapped through
the Horner loop.  When the coefficient sequence is empty, `plen = 0` and the
code reads `p[0]` out of bounds (no validation exists); when it has more
than 255 entries, `plen` wraps and the fill loop writes past the `plen`-sized
buffer.  Both are undefined behaviour, embedded as `.error .outOfBounds`.
On 1..255 coefficients the function is defined and total. -/
def poly_polyval (p xs : List ℚ) : Except PolyErr (List ℚ) :=
  if 255 < p.length then .error .outOfBounds
  else
    match p with
    | [] => .error .outOfBounds
    | c :: cs => .ok (xs.map fun x => hornerLoop c cs x)

/-- The specification's direct power sum `Σ c[k] * x^(degree-k)` with
`degree = len(c) - 1` (spec §8, first testable property). -/
def polySum (p : List ℚ) (x : ℚ) : ℚ :=
  ∑ k in Finset.range p.length, p.getD k 0 * x ^ (p.length - 1 - k)

theorem hornerLoop_eq_sum (cs : List ℚ) :
    ∀ (y x : ℚ), hornerLoop y cs x =
      y * x ^ cs.length + ∑ k in Finset.range cs.length, cs.getD k 0 * x ^ (cs.length - 1 - k) := by
  induction cs with
  | nil => intro y x; simp [hornerLoop]
  | cons a t ih =>
    intro y x
    have h := ih (y * x + a) x
    simp only [hornerLoop, List.foldl_cons] at h ⊢
    rw [h]
    simp only [List.length_cons]
    rw [Finset.sum_range_succ']
    simp only [List.getD_cons_succ, List.getD_cons_zero]
    have hlen : ∀ k, t.length + 1 - 1 - (k + 1) = t.length - 1 - k := by omega
    have hlen0 : t.length + 1 - 1 - 0 = t.length := by omega
    rw [hlen0]
    have : ∑ k in Finset.range t.length, t.getD k 0 * x ^ (t.length + 1 - 1 - (k + 1)) =
        ∑ k in Finset.range t.length, t.getD k 0 * x ^ (t.length - 1 - k) := by
      exact Finset.sum_congr rfl fun k _ => by rw [hlen k]
    rw [this]
    ring

/-- C1: the Horner-scheme result of `poly_polyval` equals the direct
polynomial power sum `Σ c[k] * x^(degree-k)`, and a single-coefficient
vector evaluates to that constant everywhere — amended to coefficient
vectors of 1 to 255 entries, the domain on which the 8-bit coefficient
counter `plen` of the C code makes the function well defined. -/
theorem polyval_horner_eq_polySum :
    (∀ (p xs : List ℚ), p ≠ [] → p.length ≤ 255 →
      poly_polyval p xs = .ok (xs.map fun x => polySum p x)) ∧
    (∀ (c : ℚ) (xs : List ℚ), poly_polyval [c] xs = .ok (xs.map fun _ => c)) := by
  have main : ∀ (p xs : List ℚ), p ≠ [] → p.length ≤ 255 →
      poly_polyval p xs = .ok (xs.map fun x => polySum p x) := by
    intro p xs hne hle
    match p with
    | [] => exact absurd rfl hne
    | c :: cs =>
      rw [poly_polyval, if_neg (by omega)]
      refine congrArg Except.ok (List.map_congr_left fun x _ => ?_)
      rw [hornerLoop_eq_sum, polySum]
      simp only [List.length_cons]
      rw [Finset.sum_range_succ']
      simp only [List.getD_cons_succ, List.getD_cons_zero]
      have h0 : cs.length + 1 - 1 - 0 = cs.length := by omega
      have hk : ∀ k, cs.length + 1 - 1 - (k + 1) = cs.length - 1 - k := by omega
      rw [h0]
      have : ∑ k in Finset.range cs.length, cs.getD k 0 * x ^ (cs.length + 1 - 1 - (k + 1)) =
          ∑ k in Finset.range cs.length, cs.getD k 0 * x ^ (cs.length - 1 - k) :=
        Finset.sum_congr rfl fun k _ => by rw [hk k]
      rw [this]
      ring
  refine ⟨main, fun c xs => ?_⟩
  rw [main [c] xs (by simp) (by simp)]
  refine congrArg Except.ok (List.map_congr_left fun x _ => ?_)
  simp [polySum]

/-- Witness for C1 at `c = [1, 2]`, `x = [3]` (Horner: `1*3 + 2 = 5`). -/
theorem polyval_horner_eq_polySum_witness :
    poly_polyval [(1 : ℚ), 2] [3] = .ok ([(3 : ℚ)].map fun x => polySum [1, 2] x) :=
  polyval_horner_eq_polySum.1 [1, 2] [3] (by decide) (by decide)

/-- Counterexample to C1 as stated for every non-empty coefficient vector:
with 256 coefficients the `uint8_t plen` counter of `poly_polyval` wraps to
0, so the fill loop writes past the zero-sized coefficient buffer and no
Horner value is produced (undefined behaviour, embedded as an error). -/
theorem polyval_256_coeffs_undefined :
    poly_polyval (List.replicate 256 (1 : ℚ)) [1] = .error .outOfBounds := by
  rw [poly_polyval.eq_def, if_pos (by rw [List.length_replicate]; omega)]

/-- C4: at the failing input (empty coefficient sequence) `poly_polyval`
performs no validation at all: it reads `p[0]` from a zero-length buffer
(undefined behaviour) instead of raising `InvalidArgument`. -/
theorem polyval_empty_coeffs_no_invalid_argument :
    poly_polyval ([] : List ℚ) [0] = .error .outOfBounds ∧
    poly_polyval ([] : List ℚ) [0] ≠ .error .invalidArgument := by
  have h1 : poly_polyval ([] : List ℚ) [0] = .error .outOfBounds := rfl
  exact ⟨h1, by rw [h1]; simp⟩

/-! ## Interpolator: poly_interp -/

/-- The binary-search loop of `poly_interp` (poly.c lines 239-248):
`while(right - left > 1) { middle = left + (right - left)/2;
if (x <= xp[middle]) right = middle; else left = middle; }`.
Returns the final `(left_index, right_index)` pair. -/
def bsearch (xp : List ℚ) (x : ℚ) (lo hi : ℕ) : ℕ × ℕ :=
  if h : 1 < hi - lo then
    let mid := lo + (hi - lo) / 2
    if x ≤ xp.getD mid 0 then bsearch xp x lo mid else bsearch xp x mid hi
  else (lo, hi)
termination_by hi - lo
decreasing_by
  · omega
  · omega

/-- Per-query-point body of the `poly_interp` loop (poly.c lines 230-255):
clamp to `left_value` when `x <= xp[0]`, to `right_value` when
`x >= xp[len-1]`, otherwise binary search for the bracket and
linearly interpolate.  `left`/`right` are the optional keyword overrides;
when absent the code uses `fp[0]` resp. `fp[len-1]`. -/
def interp_point (xp fp : List ℚ) (left right : Option ℚ) (x : ℚ) : ℚ :=
  if x ≤ xp.getD 0 0 then left.getD (fp.getD 0 0)
  else if xp.getD (xp.length - 1) 0 ≤ x then right.getD (fp.getD (fp.length - 1) 0)
  else
    let lohi := bsearch xp x 0 (xp.length - 1)
    fp.getD lohi.1 0 +
      (x - xp.getD lohi.1 0) * (fp.getD lohi.2 0 - fp.getD lohi.1 0) /
        (xp.getD lohi.2 0 - xp.getD lohi.1 0)

/-- The shape metadata of an `ndarray_obj_t`: `m` rows, `n` columns, and the
flat element buffer (`array->len` is the buffer length). -/
structure NDArr where
  m : ℕ
  n : ℕ
  data : List ℚ

/-- `poly_interp` (poly.c lines 196-257): upfront validation
`((xp->m != 1) && (xp->n != 1)) || ((fp->m != 1) && (fp->n != 1)) ||
(xp->len < 2) || (fp->len < 2) || (xp->len != fp->len)` raises
`ValueError` before the output array is created; otherwise every query
element is mapped through `interp_point`. -/
def poly_interp (x xp fp : NDArr) (left right : Option ℚ) : Except PolyErr (List ℚ) :=
  if (xp.m ≠ 1 ∧ xp.n ≠ 1) ∨ (fp.m ≠ 1 ∧ fp.n ≠ 1) ∨
      xp.data.length < 2 ∨ fp.data.length < 2 ∨ xp.data.length ≠ fp.data.length then
    .error .invalidArgument
  else
    .ok (x.data.map (interp_point xp.data fp.data left right))

theorem sorted_getD_lt (xp : List ℚ) (hs : xp.Sorted (· < ·)) {i j : ℕ}
    (hij : i < j) (hj : j < xp.length) : xp.getD i 0 < xp.getD j 0 := by
  rw [List.getD_eq_getElem xp 0 (lt_trans hij hj), List.getD_eq_getElem xp 0 hj]
  exact hs.rel_get_of_lt hij

theorem sorted_getD_le (xp : List ℚ) (hs : xp.Sorted (· < ·)) {i j : ℕ}
    (hij : i ≤ j) (hj : j < xp.length) : xp.getD i 0 ≤ xp.getD j 0 := by
  rcases Nat.lt_or_ge i j with h | h
  · exact le_of_lt (sorted_getD_lt xp hs h hj)
  · have : i = j := by omega
    rw [this]

/-- Invariant of the `poly_interp` binary search: starting from a pair
`lo < hi` with `xp[lo] < x ≤ xp[hi]`, the loop ends on an adjacent pair
inside `[lo, hi]` that still brackets `x`.  (No sortedness is needed for
this; the loop itself maintains the bracketing.) -/
theorem bsearch_bracket (xp : List ℚ) (x : ℚ) :
    ∀ (d lo hi : ℕ), hi - lo ≤ d → lo < hi →
      xp.getD lo 0 < x → x ≤ xp.getD hi 0 →
      lo ≤ (bsearch xp x lo hi).1 ∧ (bsearch xp x lo hi).2 = (bsearch xp x lo hi).1 + 1 ∧
      (bsearch xp x lo hi).2 ≤ hi ∧ xp.getD (bsearch xp x lo hi).1 0 < x ∧
      x ≤ xp.getD (bsearch xp x lo hi).2 0 := by
  intro d
  induction d with
  | zero => intro lo hi hle hlt _ _; omega
  | succ n ih =>
    intro lo hi hle hlt hlo hhi
    rw [bsearch]
    by_cases h : 1 < hi - lo
    · rw [dif_pos h]
      simp only
      by_cases hx : x ≤ xp.getD (lo + (hi - lo) / 2) 0
      · rw [if_pos hx]
        have h2 := ih lo (lo + (hi - lo) / 2) (by omega) (by omega) hlo hx
        exact ⟨h2.1, h2.2.1, le_trans h2.2.2.1 (by omega), h2.2.2.2⟩
      · rw [if_neg hx]
        push_neg at hx
        have h2 := ih (lo + (hi - lo) / 2) hi (by omega) (by omega) hx hhi
        exact ⟨le_trans (by omega) h2.1, h2.2.1, h2.2.2.1, h2.2.2.2⟩
    · rw [dif_neg h]
      exact ⟨le_refl _, by omega, le_refl _, hlo, hhi⟩

/-- For strictly sorted `xp` a bracketing pair is unique: two adjacent
pairs `(a, a+1)` and `(b, b+1)` with `xp[a] < x ≤ xp[a+1]` and
`xp[b] < x ≤ xp[b+1]` coincide. -/
theorem bracket_unique (xp : List ℚ) (hs : xp.Sorted (· < ·)) (x : ℚ) {a b : ℕ}
    (ha : a + 1 < xp.length) (hb : b + 1 < xp.length)
    (ha1 : xp.getD a 0 < x) (ha2 : x ≤ xp.getD (a + 1) 0)
    (hb1 : xp.getD b 0 < x) (hb2 : x ≤ xp.getD (b + 1) 0) : a = b := by
  rcases Nat.lt_trichotomy a b with h | h | h
  · have : xp.getD (a + 1) 0 ≤ xp.getD b 0 := sorted_getD_le xp hs (by omega) (by omega)
    linarith
  · exact h
  · have : xp.getD (b + 1) 0 ≤ xp.getD a 0 := sorted_getD_le xp hs (by omega) (by omega)
    linarith

theorem interp_point_mid (xp fp : List ℚ) (left right : Option ℚ) (x : ℚ)
    (hA : ¬ x ≤ xp.getD 0 0) (hB : ¬ xp.getD (xp.length - 1) 0 ≤ x) :
    interp_point xp fp left right x =
      fp.getD (bsearch xp x 0 (xp.length - 1)).1 0 +
        (x - xp.getD (bsearch xp x 0 (xp.length - 1)).1 0) *
          (fp.getD (bsearch xp x 0 (xp.length - 1)).2 0 -
            fp.getD (bsearch xp x 0 (xp.length - 1)).1 0) /
          (xp.getD (bsearch xp x 0 (xp.length - 1)).2 0 -
            xp.getD (bsearch xp x 0 (xp.length - 1)).1 0) := by
  rw [interp_point, if_neg hA, if_neg hB]

/-- C2: per query point, `poly_interp` clamps to `left` (default `fp[0]`)
when `x ≤ xp[0]`, clamps to `right` (default `fp[n-1]`) when `x ≥ xp[n-1]`,
and otherwise linearly interpolates on the unique adjacent bracketing pair
`xp[lo] < x ≤ xp[lo+1]` found by the binary search. -/
theorem interp_point_spec (xp fp : List ℚ) (x : ℚ) (left right : Option ℚ)
    (hs : xp.Sorted (· < ·)) (hlen : 2 ≤ xp.length) (hfp : fp.length = xp.length) :
    (x ≤ xp.getD 0 0 → interp_point xp fp left right x = left.getD (fp.getD 0 0)) ∧
    (xp.getD (xp.length - 1) 0 ≤ x →
      interp_point xp fp left right x = right.getD (fp.getD (fp.length - 1) 0)) ∧
    (xp.getD 0 0 < x → x < xp.getD (xp.length - 1) 0 →
      ∃ lo, lo + 1 ≤ xp.length - 1 ∧ xp.getD lo 0 < x ∧ x ≤ xp.getD (lo + 1) 0 ∧
        (∀ lo', lo' + 1 ≤ xp.length - 1 → xp.getD lo' 0 < x → x ≤ xp.getD (lo' + 1) 0 →
          lo' = lo) ∧
        interp_point xp fp left right x =
          fp.getD lo 0 + (x - xp.getD lo 0) * (fp.getD (lo + 1) 0 - fp.getD lo 0) /
            (xp.getD (lo + 1) 0 - xp.getD lo 0)) := by
  have h0n : xp.getD 0 0 < xp.getD (xp.length - 1) 0 :=
    sorted_getD_lt xp hs (by omega) (by omega)
  refine ⟨fun hle => ?_, fun hge => ?_, fun h1 h2 => ?_⟩
  · rw [interp_point, if_pos hle]
  · rw [interp_point, if_neg (by linarith), if_pos hge]
  · have hb := bsearch_bracket xp x (xp.length - 1) 0 (xp.length - 1)
      (by omega) (by omega) h1 (le_of_lt h2)
    obtain ⟨hb1, hb2, hb3, hb4, hb5⟩ := hb
    refine ⟨(bsearch xp x 0 (xp.length - 1)).1, by omega, hb4, ?_, ?_, ?_⟩
    · rw [← hb2]; exact hb5
    · intro lo' h1' h2' h3'
      exact bracket_unique xp hs x (by omega) (by omega) h2' h3' hb4 (by rw [← hb2]; exact hb5)
    · rw [interp_point_mid xp fp left right x (by linarith) (by linarith), hb2]

/-- Witness for C2 at `xp = [0, 1, 3]`, `fp = [0, 10, 20]`, `x = -1`
(below-range clamp, no `left` override: result `fp[0]`). -/
theorem interp_point_spec_witness :
    interp_point [(0 : ℚ), 1, 3] [(0 : ℚ), 10, 20] none none (-1) =
      Option.none.getD ([(0 : ℚ), 10, 20].getD 0 0) :=
  (interp_point_spec [(0 : ℚ), 1, 3] [(0 : ℚ), 10, 20] (-1) none none
    (by decide) (by decide) (by decide)).1 (by decide)

theorem shape_case {m n len : ℕ} (h : len = m * n) (hmn : m ≠ 1 ∧ n ≠ 1) :
    len < 2 ∨ (1 < m ∧ 1 < n) := by
  rcases Nat.eq_zero_or_pos m with hm | hm
  · left; subst hm; simp at h; omega
  rcases Nat.eq_zero_or_pos n with hn | hn
  · left; subst hn; simp at h; omega
  right; omega

/-- C7: given consistent shape metadata (`array->len = m * n`),
`poly_interp` raises `InvalidArgument`, producing no output, exactly when
the lengths differ, either length is below 2, or either argument is
matrix-shaped with both dimensions above 1; otherwise no validation error
is raised. -/
theorem interp_validation (x xp fp : NDArr) (left right : Option ℚ)
    (hxp : xp.data.length = xp.m * xp.n) (hfp : fp.data.length = fp.m * fp.n) :
    poly_interp x xp fp left right = .error .invalidArgument ↔
      (xp.data.length ≠ fp.data.length ∨ xp.data.length < 2 ∨ fp.data.length < 2 ∨
        (1 < xp.m ∧ 1 < xp.n) ∨ (1 < fp.m ∧ 1 < fp.n)) := by
  have hiff : ((xp.m ≠ 1 ∧ xp.n ≠ 1) ∨ (fp.m ≠ 1 ∧ fp.n ≠ 1) ∨
      xp.data.length < 2 ∨ fp.data.length < 2 ∨ xp.data.length ≠ fp.data.length) ↔
      (xp.data.length ≠ fp.data.length ∨ xp.data.length < 2 ∨ fp.data.length < 2 ∨
        (1 < xp.m ∧ 1 < xp.n) ∨ (1 < fp.m ∧ 1 < fp.n)) := by
    constructor
    · rintro (h | h | h | h | h)
      · rcases shape_case hxp h with h2 | h2
        · exact Or.inr (Or.inl h2)
        · exact Or.inr (Or.inr (Or.inr (Or.inl h2)))
      · rcases shape_case hfp h with h2 | h2
        · exact Or.inr (Or.inr (Or.inl h2))
        · exact Or.inr (Or.inr (Or.inr (Or.inr h2)))
      · exact Or.inr (Or.inl h)
      · exact Or.inr (Or.inr (Or.inl h))
      · exact Or.inl h
    · rintro (h | h | h | h | h)
      · exact Or.inr (Or.inr (Or.inr (Or.inr h)))
      · exact Or.inr (Or.inr (Or.inl h))
      · exact Or.inr (Or.inr (Or.inr (Or.inl h)))
      · exact Or.inl ⟨by omega, by omega⟩
      · exact Or.inr (Or.inl ⟨by omega, by omega⟩)
  rw [poly_interp]
  by_cases h : (xp.m ≠ 1 ∧ xp.n ≠ 1) ∨ (fp.m ≠ 1 ∧ fp.n ≠ 1) ∨
      xp.data.length < 2 ∨ fp.data.length < 2 ∨ xp.data.length ≠ fp.data.length
  · rw [if_pos h]
    simp only [true_iff, eq_self_iff_true]
    exact hiff.mp h
  · rw [if_neg h]
    constructor
    · intro hcontra; exact absurd hcontra (by simp)
    · intro hr; exact absurd (hiff.mpr hr) h

/-- Witness for C7: `xp` of length 3 and `fp` of length 2 (both `1×len`
row vectors) trigger the `InvalidArgument` validation error. -/
theorem interp_validation_witness :
    poly_interp ⟨1, 1, [(0 : ℚ)]⟩ ⟨1, 3, [(0 : ℚ), 1, 2]⟩ ⟨1, 2, [(5 : ℚ), 6]⟩ none none =
        .error .invalidArgument ↔
      (([(0 : ℚ), 1, 2].length ≠ [(5 : ℚ), 6].length ∨ [(0 : ℚ), 1, 2].length < 2 ∨
        [(5 : ℚ), 6].length < 2 ∨ (1 < 1 ∧ 1 < 3) ∨ (1 < 1 ∧ 1 < 2))) :=
  interp_validation ⟨1, 1, [(0 : ℚ)]⟩ ⟨1, 3, [(0 : ℚ), 1, 2]⟩ ⟨1, 2, [(5 : ℚ), 6]⟩
    none none (by decide) (by decide)

/-- C8: querying `poly_interp` exactly at the knots returns the dependent
values unchanged: for strictly increasing `xp` of length at least 2 and
`fp` of the same length (1D row vectors, no `left`/`right` overrides),
`interp(xp, xp, fp) = fp`, exactly over `ℚ`. -/
theorem interp_at_knots (xp fp : List ℚ) (hs : xp.Sorted (· < ·))
    (hlen : 2 ≤ xp.length) (hfp : fp.length = xp.length) :
    poly_interp ⟨1, xp.length, xp⟩ ⟨1, xp.length, xp⟩ ⟨1, fp.length, fp⟩ none none =
      .ok fp := by
  rw [poly_interp, if_neg (by simp; omega)]
  dsimp only
  refine congrArg Except.ok (List.ext_getElem (by simp [hfp]) ?_)
  intro i hi1 hi2
  rw [List.getElem_map]
  have hi : i < xp.length := by simpa using hi1
  have hgx : ∀ j (hj : j < xp.length), xp[j] = xp.getD j 0 :=
    fun j hj => (List.getD_eq_getElem xp 0 hj).symm
  have hgf : ∀ j (hj : j < fp.length), fp[j] = fp.getD j 0 :=
    fun j hj => (List.getD_eq_getElem fp 0 hj).symm
  rw [hgx i hi, hgf i hi2]
  set x := xp.getD i 0 with hx
  rcases Nat.eq_zero_or_pos i with hi0 | hipos
  · subst hi0
    rw [interp_point, if_pos (by simp [hx])]
    simp
  rcases Nat.lt_or_ge i (xp.length - 1) with himid | hilast
  · -- interior knot: the binary search lands exactly on (i-1, i)
    have hA : xp.getD 0 0 < x := sorted_getD_lt xp hs (show 0 < i from hipos) hi
    have hB : x < xp.getD (xp.length - 1) 0 :=
      sorted_getD_lt xp hs (show i < xp.length - 1 from himid) (by omega)
    rw [interp_point_mid xp fp none none x (by linarith) (by linarith)]
    have hb := bsearch_bracket xp x (xp.length - 1) 0 (xp.length - 1)
      (by omega) (by omega) hA (le_of_lt hB)
    obtain ⟨hb1, hb2, hb3, hb4, hb5⟩ := hb
    have hprev : xp.getD (i - 1) 0 < x :=
      sorted_getD_lt xp hs (show i - 1 < i by omega) hi
    have hieq : (bsearch xp x 0 (xp.length - 1)).1 = i - 1 := by
      refine bracket_unique xp hs x (by omega) (by omega) hb4
        (by rw [← hb2]; exact hb5) hprev ?_
      have hstep : i - 1 + 1 = i := by omega
      rw [hstep]
    rw [hb2, hieq]
    have hstep : i - 1 + 1 = i := by omega
    rw [hstep]
    have hne : x - xp.getD (i - 1) 0 ≠ 0 := sub_ne_zero.mpr (ne_of_gt hprev)
    rw [← hx, mul_div_cancel_left₀ _ hne]
    ring
  · -- last knot: the right-clamp branch fires
    have hieq : i = xp.length - 1 := by omega
    have hA : xp.getD 0 0 < x := sorted_getD_lt xp hs (show 0 < i from hipos) hi
    rw [interp_point, if_neg (not_le.mpr hA), if_pos (le_of_eq (by rw [hx, hieq]))]
    simp only [Option.getD_none]
    rw [hfp, hieq]

/-- Witness for C8 at `xp = [0, 1, 3]`, `fp = [5, 6, 7]`. -/
theorem interp_at_knots_witness :
    poly_interp ⟨1, [(0 : ℚ), 1, 3].length, [(0 : ℚ), 1, 3]⟩
        ⟨1, [(0 : ℚ), 1, 3].length, [(0 : ℚ), 1, 3]⟩
        ⟨1, [(5 : ℚ), 6, 7].length, [(5 : ℚ), 6, 7]⟩ none none =
      .ok [(5 : ℚ), 6, 7] :=
  interp_at_knots [(0 : ℚ), 1, 3] [(5 : ℚ), 6, 7] (by decide) (by decide) (by decide)

/-! ## Fitter: poly_polyfit and the matrix inverter -/

/-- Modelled from the spec: `linalg_invert_matrix` is declared in
`linalg.h` and called by `poly_polyfit`, but its definition is not part of
this source tree.  Spec §4.2: Gauss-Jordan elimination on the matrix
augmented with the identity, eliminating column by column in a single
pass with no pivot search; the diagonal element is used as-is and the
routine reports failure when a diagonal pivot is zero.  One elimination
step at pivot position `e`: fail if `A[e][e] = 0`, otherwise scale row `e`
of both the matrix and the accumulator by the pivot, then subtract
`A[i][e]` times the scaled pivot row from every other row `i`. -/
def gjStep (AB : (ℕ → ℕ → ℚ) × (ℕ → ℕ → ℚ)) (e : ℕ) :
    Option ((ℕ → ℕ → ℚ) × (ℕ → ℕ → ℚ)) :=
  if AB.1 e e = 0 then none
  else
    let p := AB.1 e e
    let A1 : ℕ → ℕ → ℚ := fun i j => if i = e then AB.1 i j / p else AB.1 i j
    let B1 : ℕ → ℕ → ℚ := fun i j => if i = e then AB.2 i j / p else AB.2 i j
    some (fun i j => if i = e then A1 i j else A1 i j - A1 i e * A1 e j,
          fun i j => if i = e then B1 i j else B1 i j - A1 i e * B1 e j)

/-- Modelled from the spec: full Gauss-Jordan inversion of the leading
`k × k` block, one `gjStep` per column, `none` when a pivot is zero
(spec §4.2: "Returns failure ... when a diagonal pivot is zero"). -/
def gjInvert (k : ℕ) (A : ℕ → ℕ → ℚ) : Option (ℕ → ℕ → ℚ) :=
  ((List.range k).foldlM gjStep (A, fun i j => if i = j then 1 else 0)).map Prod.snd

/-- Row `j` of the design matrix `XT` of `poly_polyfit` (poly.c lines
128-134), built incrementally: `XT[i + 0*len] = 1` and
`XT[i + j*len] = XT[i + (j-1)*len] * x[i]`, so row `j` column `i`
holds `x[i]^j`. -/
def XTrow (xf : ℕ → ℚ) : ℕ → ℕ → ℚ
  | 0, _ => 1
  | j + 1, i => XTrow xf j i * xf i

/-- The computational core of `poly_polyfit` after validation (poly.c lines
128-191): form `prod[j][i] = Σ_k XT[j][k] * XT[i][k]`, invert it in place
(raising the singular-matrix error on failure), compute
`XTy[i] = Σ_j XT[i][j] * y[j]`, apply the inverse to obtain `beta`, and
reverse `beta` so the leading coefficient comes first
(`SWAP(betav[i], betav[deg-i])` for `i < (deg+1)/2`).
This is the functional semantics of those loops only on the domain where
their 8-bit counters terminate — `lenx ≤ 255` and `deg ≤ 254` (see
`u8forTerm`): for larger values the column loop at line 129 (bound `leny`)
or the row loop at line 131 (bound `deg+1`) never exits and the C call has
no result, so theorems about `polyfitCore` carry hypotheses restricting to
that domain. -/
def polyfitCore (xf yf : ℕ → ℚ) (lenx deg : ℕ) : Except PolyErr (List ℚ) :=
  match gjInvert (deg + 1)
      (fun j i => ∑ k in Finset.range lenx, XTrow xf j k * XTrow xf i k) with
  | none => .error .singularMatrix
  | some inv =>
      .ok ((List.range (deg + 1)).map fun i =>
        ∑ j in Finset.range (deg + 1),
          inv (deg - i) j * ∑ l in Finset.range lenx, XTrow xf j l * yf l)

/-- Two-argument `poly_polyfit(y, degree)` (poly.c lines 92-106 then
126-191): the sample count is read into `uint16_t leny` and the degree
into `uint8_t deg` (hence the `% 2^16` and `% 2^8`); `leny < deg` raises
`InvalidArgument`; `x` is implicitly `0, 1, ..., n-1`. -/
def poly_polyfit_y (y : List ℚ) (d : ℤ) : Except PolyErr (List ℚ) :=
  let leny := y.length % 65536
  let deg := (d % 256).toNat
  if leny < deg then .error .invalidArgument
  else polyfitCore (fun i => (i : ℚ)) (fun i => y.getD i 0) leny deg

/-- Three-argument `poly_polyfit(x, y, degree)` (poly.c lines 107-124 then
126-191): `lenx != leny` raises `InvalidArgument`, then `leny < deg`
raises `InvalidArgument`, then the same core runs on the supplied `x`. -/
def poly_polyfit_xy (x y : List ℚ) (d : ℤ) : Except PolyErr (List ℚ) :=
  let lenx := x.length % 65536
  let leny := y.length % 65536
  if lenx ≠ leny then .error .invalidArgument
  else
    let deg := (d % 256).toNat
    if leny < deg then .error .invalidArgument
    else polyfitCore (fun i => x.getD i 0) (fun i => y.getD i 0) lenx deg

/-- An 8-bit-counter `for` loop `for(uint8_t i = start; i < bound; i++)`
(the counters of poly.c lines 129 and 131), with explicit fuel: the
counter wraps at 256, and the loop finishes (`true`) only when the
condition `i < bound` becomes false within the given number of
iterations. -/
def u8forTerm (bound : ℕ) : ℕ → ℕ → Bool
  | 0, i => if i < bound then false else true
  | fuel + 1, i => if i < bound then u8forTerm bound fuel ((i + 1) % 256) else true

/-- The loop finishes within some number of iterations. -/
def U8ForFinishes (start bound : ℕ) : Prop :=
  ∃ fuel, u8forTerm bound fuel start = true

/-- The loop never finishes: no amount of fuel reaches the exit
condition. -/
def U8ForDiverges (start bound : ℕ) : Prop :=
  ∀ fuel, u8forTerm bound fuel start = false

theorem u8forTerm_true (bound : ℕ) (hb : bound ≤ 255) :
    ∀ fuel i, bound ≤ i + fuel → u8forTerm bound fuel i = true := by
  intro fuel
  induction fuel with
  | zero => intro i h; rw [u8forTerm, if_neg (by omega)]
  | succ n ih =>
    intro i h
    rw [u8forTerm]
    by_cases hc : i < bound
    · rw [if_pos hc, Nat.mod_eq_of_lt (by omega)]
      exact ih (i + 1) (by omega)
    · rw [if_neg hc]

theorem u8forTerm_false_of_bound_256 :
    ∀ fuel i, i < 256 → u8forTerm 256 fuel i = false := by
  intro fuel
  induction fuel with
  | zero => intro i h; rw [u8forTerm, if_pos h]
  | succ n ih =>
    intro i h
    rw [u8forTerm, if_pos h]
    exact ih ((i + 1) % 256) (Nat.mod_lt _ (by omega))

theorem polyfitCore_ne_invalid (xf yf : ℕ → ℚ) (lenx deg : ℕ) :
    polyfitCore xf yf lenx deg ≠ .error .invalidArgument := by
  cases hgj : gjInvert (deg + 1)
      (fun j i => ∑ k in Finset.range lenx, XTrow xf j k * XTrow xf i k) with
  | none => rw [polyfitCore, hgj]; simp
  | some inv => rw [polyfitCore, hgj]; simp

/-- C10: `poly_polyfit` truncates its degree argument through the
`uint8_t` cast at poly.c lines 96 and 116: for every integer degree `d`,
both calling modes behave identically to the call with `d mod 256`;
in particular degree 256 behaves as degree 0 rather than being rejected
or honored. -/
theorem polyfit_degree_mod_256 (x y : List ℚ) (d : ℤ) :
    poly_polyfit_y y d = poly_polyfit_y y (d % 256) ∧
    poly_polyfit_xy x y d = poly_polyfit_xy x y (d % 256) ∧
    poly_polyfit_y y 256 = poly_polyfit_y y 0 := by
  have h : d % 256 % 256 = d % 256 := Int.emod_emod_of_dvd d dvd_rfl
  refine ⟨?_, ?_, ?_⟩
  · rw [poly_polyfit_y, poly_polyfit_y, h]
  · rw [poly_polyfit_xy, poly_polyfit_xy, h]
  · rw [poly_polyfit_y, poly_polyfit_y]; norm_num

/-- C9: on sample counts up to 255 and (cast) degrees up to 254 the two
8-bit-counter loops of `poly_polyfit` (column loop bounded by the 16-bit
`leny`, row loop bounded by `deg+1`) exit, and the embedded `poly_polyfit`
is total: it yields either a coefficient list or an error. -/
theorem polyfit_total_on_u8_domain (leny deg : ℕ) (hn : leny ≤ 255) (hd : deg ≤ 254) :
    U8ForFinishes 0 leny ∧ U8ForFinishes 1 (deg + 1) ∧
    ∀ (y : List ℚ) (d : ℤ), (∃ r, poly_polyfit_y y d = .ok r) ∨
      (∃ e, poly_polyfit_y y d = .error e) := by
  refine ⟨⟨leny, u8forTerm_true leny hn leny 0 (by omega)⟩,
    ⟨deg + 1, u8forTerm_true (deg + 1) (by omega) (deg + 1) 1 (by omega)⟩, ?_⟩
  intro y d
  simp only [poly_polyfit_y]
  by_cases h : y.length % 65536 < (d % 256).toNat
  · right; exact ⟨.invalidArgument, by rw [if_pos h]⟩
  · rw [if_neg h]
    cases hE : polyfitCore (fun i => (i : ℚ)) (fun i => y.getD i 0)
        (y.length % 65536) ((d % 256).toNat) with
    | ok r => exact Or.inl ⟨r, rfl⟩
    | error e => exact Or.inr ⟨e, rfl⟩

/-- Witness for C9 at `leny = 3`, `deg = 1`. -/
theorem polyfit_total_on_u8_domain_witness :
    U8ForFinishes 0 3 ∧ U8ForFinishes 1 2 ∧
    ∀ (y : List ℚ) (d : ℤ), (∃ r, poly_polyfit_y y d = .ok r) ∨
      (∃ e, poly_polyfit_y y d = .error e) :=
  polyfit_total_on_u8_domain 3 1 (by omega) (by omega)

/-- C5 (amended): with the sample counts the code actually compares
(`uint16_t` casts of the lengths) and the degree it actually uses (the
`uint8_t` cast), the validation of `poly_polyfit` raises `InvalidArgument`
exactly when `lenx ≠ leny` (three-argument mode) or `leny < deg`, and the
boundary `leny = deg` passes validation in both modes. -/
theorem polyfit_validation (x y : List ℚ) (d : ℤ) :
    (poly_polyfit_xy x y d = .error .invalidArgument ↔
      (x.length % 65536 ≠ y.length % 65536 ∨ y.length % 65536 < (d % 256).toNat)) ∧
    (poly_polyfit_y y d = .error .invalidArgument ↔
      y.length % 65536 < (d % 256).toNat) ∧
    (y.length % 65536 = (d % 256).toNat →
      poly_polyfit_y y d ≠ .error .invalidArgument ∧
      (x.length % 65536 = y.length % 65536 →
        poly_polyfit_xy x y d ≠ .error .invalidArgument)) := by
  have hxy : poly_polyfit_xy x y d = .error .invalidArgument ↔
      (x.length % 65536 ≠ y.length % 65536 ∨ y.length % 65536 < (d % 256).toNat) := by
    simp only [poly_polyfit_xy]
    by_cases h1 : x.length % 65536 ≠ y.length % 65536
    · rw [if_pos h1]; simp [h1]
    · rw [if_neg h1]
      by_cases h2 : y.length % 65536 < (d % 256).toNat
      · rw [if_pos h2]; simp [h1, h2]
      · rw [if_neg h2]
        simp only [h1, h2, or_self, iff_false, false_or]
        exact polyfitCore_ne_invalid _ _ _ _
  have hy : poly_polyfit_y y d = .error .invalidArgument ↔
      y.length % 65536 < (d % 256).toNat := by
    simp only [poly_polyfit_y]
    by_cases h2 : y.length % 65536 < (d % 256).toNat
    · rw [if_pos h2]; simp [h2]
    · rw [if_neg h2]
      simp only [h2, iff_false]
      exact polyfitCore_ne_invalid _ _ _ _
  refine ⟨hxy, hy, fun heq => ⟨?_, fun hlen => ?_⟩⟩
  · exact fun hc => absurd (hy.mp hc) (by omega)
  · exact fun hc => absurd (hxy.mp hc) (by omega)

/-- Witness for C5 at `x = y = [1, 2]`, `d = 2` (the `n == degree`
boundary passes validation in both modes). -/
theorem polyfit_validation_witness :
    poly_polyfit_y [(1 : ℚ), 2] 2 ≠ .error .invalidArgument ∧
    poly_polyfit_xy [(1 : ℚ), 2] [(1 : ℚ), 2] 2 ≠ .error .invalidArgument :=
  ⟨((polyfit_validation [(1 : ℚ), 2] [(1 : ℚ), 2] 2).2.2 (by decide)).1,
   ((polyfit_validation [(1 : ℚ), 2] [(1 : ℚ), 2] 2).2.2 (by decide)).2 (by decide)⟩

theorem gjInvert_fails_of_second_pivot (k : ℕ) (hk : 2 ≤ k) (A : ℕ → ℕ → ℚ)
    (h00 : A 0 0 ≠ 0) (hprop : A 1 1 * A 0 0 = A 1 0 * A 0 1) :
    gjInvert k A = none := by
  have hr : List.range k = 0 :: 1 :: List.range' 2 (k - 2) := by
    rw [List.range_eq_range']
    have h2 : k = (k - 2) + 1 + 1 := by omega
    rw [h2, List.range'_succ, List.range'_succ]
    norm_num
    omega
  cases hP : gjStep (A, fun i j => if i = j then (1 : ℚ) else 0) 0 with
  | none =>
    rw [gjStep, if_neg h00] at hP
    exact absurd hP (by simp)
  | some P =>
    have hP11 : P.1 1 1 = 0 := by
      rw [gjStep, if_neg h00] at hP
      injection hP with hP'
      rw [← hP']
      norm_num
      field_simp
      linarith [hprop]
    rw [gjInvert, hr, List.foldlM_cons, hP]
    show Option.map Prod.snd (List.foldlM gjStep P (1 :: List.range' 2 (k - 2))) = none
    rw [List.foldlM_cons, gjStep, if_pos hP11]
    rfl

theorem getD_replicate_of_lt {n k : ℕ} {c : ℚ} (h : k < n) :
    (List.replicate n c).getD k 0 = c := by
  rw [List.getD_eq_getElem _ 0 (by simpa using h), List.getElem_replicate]

/-- When every sample equals `c` on the index range, the normal-equations
matrix of `poly_polyfit` is rank one and the Gauss-Jordan inversion fails
at the second pivot. -/
theorem gjInvert_const_x_fails (n deg : ℕ) (c : ℚ) (xf : ℕ → ℚ)
    (hxf : ∀ k, k < n → xf k = c) (hn : 1 ≤ n) (hdeg : 1 ≤ deg) :
    gjInvert (deg + 1)
      (fun j i => ∑ k in Finset.range n, XTrow xf j k * XTrow xf i k) = none := by
  have hx1 : ∀ k ∈ Finset.range n, XTrow xf 1 k = c := fun k hk => by
    rw [show XTrow xf 1 k = XTrow xf 0 k * xf k from rfl]
    rw [show XTrow xf 0 k = 1 from rfl, one_mul, hxf k (Finset.mem_range.mp hk)]
  have e00 : (∑ k in Finset.range n, XTrow xf 0 k * XTrow xf 0 k) = (n : ℚ) := by
    rw [Finset.sum_congr rfl (fun k _ => by
      rw [show XTrow xf 0 k = 1 from rfl, one_mul])]
    rw [Finset.sum_const, Finset.card_range, nsmul_eq_mul, mul_one]
  have e11 : (∑ k in Finset.range n, XTrow xf 1 k * XTrow xf 1 k) = (n : ℚ) * (c * c) := by
    rw [Finset.sum_congr rfl (fun k hk => by rw [hx1 k hk])]
    rw [Finset.sum_const, Finset.card_range, nsmul_eq_mul]
  have e10 : (∑ k in Finset.range n, XTrow xf 1 k * XTrow xf 0 k) = (n : ℚ) * c := by
    rw [Finset.sum_congr rfl (fun k hk => by
      rw [hx1 k hk, show XTrow xf 0 k = 1 from rfl, mul_one])]
    rw [Finset.sum_const, Finset.card_range, nsmul_eq_mul]
  have e01 : (∑ k in Finset.range n, XTrow xf 0 k * XTrow xf 1 k) = (n : ℚ) * c := by
    rw [Finset.sum_congr rfl (fun k hk => by
      rw [hx1 k hk, show XTrow xf 0 k = 1 from rfl, one_mul])]
    rw [Finset.sum_const, Finset.card_range, nsmul_eq_mul]
  apply gjInvert_fails_of_second_pivot _ (by omega)
  · show (∑ k in Finset.range n, XTrow xf 0 k * XTrow xf 0 k) ≠ 0
    rw [e00]
    exact Nat.cast_ne_zero.mpr (by omega)
  · show (∑ k in Finset.range n, XTrow xf 1 k * XTrow xf 1 k) *
        (∑ k in Finset.range n, XTrow xf 0 k * XTrow xf 0 k) =
      (∑ k in Finset.range n, XTrow xf 1 k * XTrow xf 0 k) *
        (∑ k in Finset.range n, XTrow xf 0 k * XTrow xf 1 k)
    rw [e11, e00, e10, e01]
    ring

/-- C6 (amended): when all `x` samples are identical, the (8-bit-cast)
degree is between 1 and 254, and `deg ≤ n ≤ 255` samples are supplied (so
validation passes and both 8-bit loop counters of the design-matrix build
terminate — the first two conjuncts), the inversion is reached, the
normal-equations matrix is singular, and the call aborts with the
singular-matrix error, returning no coefficient result.  The matrix
inverter is modelled from spec §4.2 (`linalg_invert_matrix` is outside
this source tree); buffer release is not observable in the embedding —
the error return carries no result, matching "no result returned". -/
theorem polyfit_const_x_singular (n : ℕ) (c : ℚ) (y : List ℚ) (d : ℤ)
    (hn : n ≤ 255) (hy : y.length = n) (hdeg1 : 1 ≤ (d % 256).toNat)
    (hdeg254 : (d % 256).toNat ≤ 254) (hdegn : (d % 256).toNat ≤ n) :
    U8ForFinishes 0 n ∧ U8ForFinishes 1 ((d % 256).toNat + 1) ∧
    poly_polyfit_xy (List.replicate n c) y d = .error .singularMatrix := by
  refine ⟨⟨n, u8forTerm_true n hn n 0 (by omega)⟩,
    ⟨(d % 256).toNat + 1, u8forTerm_true ((d % 256).toNat + 1) (by omega)
      ((d % 256).toNat + 1) 1 (by omega)⟩, ?_⟩
  have hmod : n % 65536 = n := Nat.mod_eq_of_lt (by omega)
  simp only [poly_polyfit_xy, List.length_replicate, hy, hmod]
  rw [if_neg (fun hc => hc rfl), if_neg (by omega)]
  have hg := gjInvert_const_x_fails n ((d % 256).toNat) c
    (fun i => (List.replicate n c).getD i 0)
    (fun k hk => getD_replicate_of_lt hk) (by omega) hdeg1
  rw [polyfitCore, hg]

/-- Witness for C6: three identical samples `x = [2, 2, 2]`, degree 1. -/
theorem polyfit_const_x_singular_witness :
    U8ForFinishes 0 3 ∧ U8ForFinishes 1 2 ∧
    poly_polyfit_xy (List.replicate 3 (2 : ℚ)) [(1 : ℚ), 2, 3] 1 =
      .error .singularMatrix :=
  polyfit_const_x_singular 3 2 [(1 : ℚ), 2, 3] 1 (by omega) (by decide)
    (by decide) (by decide) (by decide)

/-- Counterexample to C6 as stated for every `degree ≥ 1` with identical
samples: at cast degree 255 the row loop of the design-matrix build,
`for(uint8_t j = 1; j < deg+1; j++)` (poly.c line 131), has bound
`deg + 1 = 256`, so its 8-bit counter wraps below the bound and the loop
never exits (for example `x = y` of 255 identical values, degree 255:
validation passes, but the inversion is never reached and no
singular-matrix failure is ever signaled). -/
theorem polyfit_deg255_row_loop_diverges : U8ForDiverges 1 256 :=
  fun fuel => u8forTerm_false_of_bound_256 fuel 1 (by omega)

/-- Counterexample to C5 as stated: with one sample and requested degree
257 the claim demands `InvalidArgument` (`n = 1 < 257`), but the `uint8_t`
cast turns the degree into 1, validation passes (`1 < 1` is false), and
the fit proceeds to the singular-matrix failure instead. -/
theorem polyfit_degree_257_counterexample :
    poly_polyfit_y [(5 : ℚ)] 257 = .error .singularMatrix ∧
    poly_polyfit_y [(5 : ℚ)] 257 ≠ .error .invalidArgument := by
  have hg := gjInvert_const_x_fails 1 1 0 (fun i => (i : ℚ))
    (fun k hk => by
      have hk0 : k = 0 := by omega
      rw [hk0]; norm_num) (by omega) (by omega)
  have h : poly_polyfit_y [(5 : ℚ)] 257 = .error .singularMatrix := by
    simp only [poly_polyfit_y]
    norm_num
    rw [polyfitCore, hg]
  exact ⟨h, by rw [h]; simp⟩

/-- Counterexample to C3 as stated for every `n ≥ 2`: with `n = 256`
samples the design-matrix column loop `for(uint8_t i = 0; i < leny; i++)`
of `poly_polyfit` never exits (the 8-bit counter wraps below the 16-bit
bound 256), so the fit never returns a coefficient vector. -/
theorem polyfit_256_samples_loop_diverges : U8ForDiverges 0 256 :=
  fun fuel => u8forTerm_false_of_bound_256 fuel 0 (by omega)

theorem gjInvert_two (A : ℕ → ℕ → ℚ) (h00 : A 0 0 ≠ 0)
    (hq : A 1 1 - A 1 0 * (A 0 1 / A 0 0) ≠ 0) :
    ∃ B, gjInvert 2 A = some B ∧
      B 0 0 * A 0 0 + B 0 1 * A 1 0 = 1 ∧
      B 0 0 * A 0 1 + B 0 1 * A 1 1 = 0 ∧
      B 1 0 * A 0 0 + B 1 1 * A 1 0 = 0 ∧
      B 1 0 * A 0 1 + B 1 1 * A 1 1 = 1 := by
  have hq2 : A 1 1 * A 0 0 - A 1 0 * A 0 1 ≠ 0 := by
    intro hc
    apply hq
    have hmul : (A 1 1 - A 1 0 * (A 0 1 / A 0 0)) * A 0 0 =
        A 1 1 * A 0 0 - A 1 0 * A 0 1 := by field_simp
    have := hmul.trans hc
    rcases mul_eq_zero.mp this with h | h
    · exact h
    · exact absurd h h00
  cases hP : gjStep (A, fun i j => if i = j then (1 : ℚ) else 0) 0 with
  | none =>
    rw [gjStep, if_neg h00] at hP
    exact absurd hP (by simp)
  | some P =>
    obtain ⟨PA, PB⟩ := P
    rw [gjStep, if_neg h00] at hP
    simp only [Option.some.injEq, Prod.mk.injEq] at hP
    obtain ⟨hPA, hPB⟩ := hP
    have hPA11 : PA 1 1 = A 1 1 - A 1 0 * (A 0 1 / A 0 0) := by
      rw [← hPA]; norm_num
    have hPA01 : PA 0 1 = A 0 1 / A 0 0 := by rw [← hPA]; norm_num
    have hPB00 : PB 0 0 = 1 / A 0 0 := by rw [← hPB]; norm_num
    have hPB01 : PB 0 1 = 0 := by rw [← hPB]; norm_num
    have hPB10 : PB 1 0 = -(A 1 0) / A 0 0 := by rw [← hPB]; norm_num; ring
    have hPB11 : PB 1 1 = 1 := by rw [← hPB]; norm_num
    have hq' : PA 1 1 ≠ 0 := by rw [hPA11]; exact hq
    cases hP2 : gjStep (PA, PB) 1 with
    | none =>
      rw [gjStep, if_neg hq'] at hP2
      exact absurd hP2 (by simp)
    | some Q =>
      obtain ⟨QA, QB⟩ := Q
      rw [gjStep, if_neg hq'] at hP2
      simp only [Option.some.injEq, Prod.mk.injEq] at hP2
      obtain ⟨hQA, hQB⟩ := hP2
      have hQB00 : QB 0 0 = PB 0 0 - PA 0 1 * (PB 1 0 / PA 1 1) := by
        rw [← hQB]; norm_num
      have hQB01 : QB 0 1 = PB 0 1 - PA 0 1 * (PB 1 1 / PA 1 1) := by
        rw [← hQB]; norm_num
      have hQB10 : QB 1 0 = PB 1 0 / PA 1 1 := by rw [← hQB]; norm_num
      have hQB11 : QB 1 1 = PB 1 1 / PA 1 1 := by rw [← hQB]; norm_num
      refine ⟨QB, ?_, ?_, ?_, ?_, ?_⟩
      · rw [gjInvert, show List.range 2 = [0, 1] from rfl, List.foldlM_cons]
        rw [show gjStep (A, fun i j => if i = j then (1 : ℚ) else 0) 0 =
          some (PA, PB) from by
            rw [gjStep, if_neg h00]
            simp only [Option.some.injEq, Prod.mk.injEq]
            exact ⟨hPA, hPB⟩]
        show Option.map Prod.snd (List.foldlM gjStep (PA, PB) [1]) = some QB
        rw [List.foldlM_cons]
        rw [show gjStep (PA, PB) 1 = some (QA, QB) from by
          rw [gjStep, if_neg hq']
          simp only [Option.some.injEq, Prod.mk.injEq]
          exact ⟨hQA, hQB⟩]
        rfl
      · rw [hQB00, hQB01, hPB00, hPB01, hPB10, hPB11, hPA01, hPA11]
        field_simp
        ring
      · rw [hQB00, hQB01, hPB00, hPB01, hPB10, hPB11, hPA01, hPA11]
        field_simp
        ring
      · rw [hQB10, hQB11, hPB10, hPB11, hPA11]
        field_simp
        ring
      · rw [hQB10, hQB11, hPB10, hPB11, hPA11]
        field_simp
        ring

theorem sum_range_cast_eq (n : ℕ) :
    (∑ k in Finset.range n, (k : ℚ)) = n * (n - 1) / 2 := by
  induction n with
  | zero => simp
  | succ m ih => rw [Finset.sum_range_succ, ih]; push_cast; ring

theorem sum_range_sq_eq (n : ℕ) :
    (∑ k in Finset.range n, (k : ℚ) * k) = n * (n - 1) * (2 * n - 1) / 6 := by
  induction n with
  | zero => simp
  | succ m ih => rw [Finset.sum_range_succ, ih]; push_cast; ring

theorem XTrow_id_zero (k : ℕ) : XTrow (fun i => (i : ℚ)) 0 k = 1 := rfl

theorem XTrow_id_one (k : ℕ) : XTrow (fun i => (i : ℚ)) 1 k = (k : ℚ) := by
  show XTrow (fun i => (i : ℚ)) 0 k * (k : ℚ) = (k : ℚ)
  rw [XTrow_id_zero, one_mul]

theorem getD_linear (n l : ℕ) (a b : ℚ) (hl : l < n) :
    ((List.range n).map fun i : ℕ => a * (i : ℚ) + b).getD l 0 = a * l + b := by
  rw [List.getD_eq_getElem _ 0 (by rw [List.length_map, List.length_range]; exact hl)]
  rw [List.getElem_map, List.getElem_range]

/-- C3 (amended): round trip of fit and evaluate on exact linear data
`y[i] = a*i + b`, two-argument mode, degree 1 — restricted to
`2 ≤ n ≤ 255` samples, the domain on which the 8-bit column-loop counter
of the design-matrix build terminates (at `n = 256` the loop never exits;
see the divergence counterexample).  The matrix inverter is modelled from
spec §4.2.  The fit returns exactly `[a, b]` (leading coefficient first),
and evaluating `[a, b]` at `0, ..., n-1` reproduces `y` exactly. -/
theorem polyfit_linear_roundtrip (n : ℕ) (a b : ℚ) (hn2 : 2 ≤ n) (hn : n ≤ 255) :
    poly_polyfit_y ((List.range n).map fun i : ℕ => a * (i : ℚ) + b) 1 = .ok [a, b] ∧
    poly_polyval [a, b] ((List.range n).map fun i : ℕ => (i : ℚ)) =
      .ok ((List.range n).map fun i : ℕ => a * (i : ℚ) + b) := by
  constructor
  · -- the fit half
    have hn' : n % 65536 = n := Nat.mod_eq_of_lt (by omega)
    have hlen : ((List.range n).map fun i : ℕ => a * (i : ℚ) + b).length = n := by
      rw [List.length_map, List.length_range]
    simp only [poly_polyfit_y, hlen, hn',
      show ((1 : ℤ) % 256).toNat = 1 from by norm_num]
    rw [if_neg (by omega)]
    -- the four entries of the normal-equations matrix
    have ea00 : (∑ k in Finset.range n,
        XTrow (fun i => (i : ℚ)) 0 k * XTrow (fun i => (i : ℚ)) 0 k) = (n : ℚ) := by
      rw [Finset.sum_congr rfl fun k _ => by rw [XTrow_id_zero, one_mul]]
      rw [Finset.sum_const, Finset.card_range, nsmul_eq_mul, mul_one]
    have ea01 : (∑ k in Finset.range n,
        XTrow (fun i => (i : ℚ)) 0 k * XTrow (fun i => (i : ℚ)) 1 k) =
        ∑ k in Finset.range n, (k : ℚ) := by
      exact Finset.sum_congr rfl fun k _ => by rw [XTrow_id_zero, XTrow_id_one, one_mul]
    have ea10 : (∑ k in Finset.range n,
        XTrow (fun i => (i : ℚ)) 1 k * XTrow (fun i => (i : ℚ)) 0 k) =
        ∑ k in Finset.range n, (k : ℚ) := by
      exact Finset.sum_congr rfl fun k _ => by rw [XTrow_id_zero, XTrow_id_one, mul_one]
    have ea11 : (∑ k in Finset.range n,
        XTrow (fun i => (i : ℚ)) 1 k * XTrow (fun i => (i : ℚ)) 1 k) =
        ∑ k in Finset.range n, (k : ℚ) * k := by
      exact Finset.sum_congr rfl fun k _ => by rw [XTrow_id_one]
    have hN2 : (2 : ℚ) ≤ (n : ℚ) := by exact_mod_cast hn2
    have hA00 : (∑ k in Finset.range n,
        XTrow (fun i => (i : ℚ)) 0 k * XTrow (fun i => (i : ℚ)) 0 k) ≠ 0 := by
      rw [ea00]; intro hc; rw [hc] at hN2; linarith
    have hAq : (∑ k in Finset.range n,
          XTrow (fun i => (i : ℚ)) 1 k * XTrow (fun i => (i : ℚ)) 1 k) -
        (∑ k in Finset.range n,
          XTrow (fun i => (i : ℚ)) 1 k * XTrow (fun i => (i : ℚ)) 0 k) *
        ((∑ k in Finset.range n,
          XTrow (fun i => (i : ℚ)) 0 k * XTrow (fun i => (i : ℚ)) 1 k) /
         (∑ k in Finset.range n,
          XTrow (fun i => (i : ℚ)) 0 k * XTrow (fun i => (i : ℚ)) 0 k)) ≠ 0 := by
      rw [ea00, ea01, ea10, ea11, sum_range_cast_eq, sum_range_sq_eq]
      have hNpos : (0 : ℚ) < (n : ℚ) := by linarith
      have hN0 : (n : ℚ) ≠ 0 := ne_of_gt hNpos
      have key : (n : ℚ) * (n - 1) * (2 * n - 1) / 6 -
          (n : ℚ) * (n - 1) / 2 * ((n : ℚ) * (n - 1) / 2 / n) =
          (n : ℚ) * (n - 1) * (n + 1) / 12 := by
        field_simp
        ring
      rw [key]
      have hpos : (0 : ℚ) < (n : ℚ) * (n - 1) * (n + 1) :=
        mul_pos (mul_pos hNpos (by linarith)) (by linarith)
      positivity
    obtain ⟨B, hB, e1, e2, e3, e4⟩ := gjInvert_two
      (fun j i => ∑ k in Finset.range n,
        XTrow (fun i => (i : ℚ)) j k * XTrow (fun i => (i : ℚ)) i k) hA00 hAq
    rw [ea00, ea10] at e1 e3
    rw [ea01, ea11] at e2 e4
    have hB' : gjInvert (1 + 1)
        (fun j i => ∑ k in Finset.range n,
          XTrow (fun i => (i : ℚ)) j k * XTrow (fun i => (i : ℚ)) i k) = some B := hB
    rw [polyfitCore, hB']
    -- the projected vector XT·y
    have ev0 : (∑ l in Finset.range n, XTrow (fun i => (i : ℚ)) 0 l *
        ((List.range n).map fun i : ℕ => a * (i : ℚ) + b).getD l 0) =
        (n : ℚ) * b + (∑ k in Finset.range n, (k : ℚ)) * a := by
      rw [show (∑ l in Finset.range n, XTrow (fun i => (i : ℚ)) 0 l *
          ((List.range n).map fun i : ℕ => a * (i : ℚ) + b).getD l 0) =
          ∑ l in Finset.range n, (a * (l : ℚ) + b) from
        Finset.sum_congr rfl fun l hl => by
          rw [XTrow_id_zero, one_mul, getD_linear n l a b (Finset.mem_range.mp hl)]]
      rw [Finset.sum_add_distrib, ← Finset.mul_sum, Finset.sum_const,
        Finset.card_range, nsmul_eq_mul]
      ring
    have ev1 : (∑ l in Finset.range n, XTrow (fun i => (i : ℚ)) 1 l *
        ((List.range n).map fun i : ℕ => a * (i : ℚ) + b).getD l 0) =
        (∑ k in Finset.range n, (k : ℚ)) * b +
          (∑ k in Finset.range n, (k : ℚ) * k) * a := by
      rw [show (∑ l in Finset.range n, XTrow (fun i => (i : ℚ)) 1 l *
          ((List.range n).map fun i : ℕ => a * (i : ℚ) + b).getD l 0) =
          ∑ l in Finset.range n, (((l : ℚ) * l) * a + (l : ℚ) * b) from
        Finset.sum_congr rfl fun l hl => by
          rw [XTrow_id_one, getD_linear n l a b (Finset.mem_range.mp hl)]; ring]
      rw [Finset.sum_add_distrib, ← Finset.sum_mul, ← Finset.sum_mul]
      ring
    refine congrArg Except.ok ?_
    rw [show List.range (1 + 1) = [0, 1] from rfl, List.map_cons, List.map_cons,
      List.map_nil]
    have hsum : ∀ i : ℕ, (∑ j in Finset.range (1 + 1), B (1 - i) j *
        ∑ l in Finset.range n, XTrow (fun i => (i : ℚ)) j l *
          ((List.range n).map fun i : ℕ => a * (i : ℚ) + b).getD l 0) =
        B (1 - i) 0 * ((n : ℚ) * b + (∑ k in Finset.range n, (k : ℚ)) * a) +
        B (1 - i) 1 * ((∑ k in Finset.range n, (k : ℚ)) * b +
          (∑ k in Finset.range n, (k : ℚ) * k) * a) := fun i => by
      rw [Finset.sum_range_succ, Finset.sum_range_succ, Finset.sum_range_zero,
        zero_add, ev0, ev1]
    rw [hsum 0, hsum 1]
    norm_num
    constructor
    · linear_combination b * e3 + a * e4
    · linear_combination b * e1 + a * e2
  · -- the evaluate half
    rw [poly_polyval, if_neg (by norm_num)]
    refine congrArg Except.ok ?_
    rw [List.map_map]
    refine List.map_congr_left fun i _ => ?_
    show hornerLoop a [b] (i : ℚ) = a * i + b
    rw [hornerLoop]
    simp

/-- Witness for C3 at `n = 3`, `a = 2`, `b = 5`. -/
theorem polyfit_linear_roundtrip_witness :
    poly_polyfit_y ((List.range 3).map fun i : ℕ => 2 * (i : ℚ) + 5) 1 =
      .ok [2, 5] ∧
    poly_polyval [(2 : ℚ), 5] ((List.range 3).map fun i : ℕ => (i : ℚ)) =
      .ok ((List.range 3).map fun i : ℕ => 2 * (i : ℚ) + 5) :=
  polyfit_linear_roundtrip 3 2 5 (by omega) (by omega)
